import Mathlib

/-!
Verification of the version-bump routine of `release.py`.

The core of the repository is `bump_version(text, part)`, which rewrites the
first line-anchored `version = "X.Y.Z"` declaration of a manifest text.  The
regex `^(version\s*=\s*")([0-9]+)\.([0-9]+)\.([0-9]+)(")` (MULTILINE) is
deterministic: each `\s*` is a maximal whitespace run followed by a
non-whitespace literal and each `[0-9]+` is a maximal digit run followed by a
non-digit literal, so it is embedded below as a straight-line parser
(`matchAt`) together with a leftmost line-start scan (`scanFrom`) that models
the MULTILINE search of `re.subn` / `re.search`.
Texts are `List Char`.
-/

/-- Whitespace as matched by Python's `\s` on `str` patterns: the ASCII
whitespace characters plus the Unicode whitespace characters. -/
def pySpace (c : Char) : Bool :=
  let n := c.toNat
  n = 32 || n = 9 || n = 10 || n = 13 || n = 11 || n = 12 ||
  n = 28 || n = 29 || n = 30 || n = 31 || n = 133 || n = 160 ||
  n = 5760 || (8192 ≤ n && n ≤ 8202) || n = 8232 || n = 8233 ||
  n = 8239 || n = 8287 || n = 12288

/-- The character class `[0-9]` of the pattern. -/
def pyDigit (c : Char) : Bool :=
  48 ≤ c.toNat && c.toNat ≤ 57

/-- Strip an expected literal from the front of the input, as the literal
parts of the regex do; `none` when the input does not start with it. -/
def stripLit : List Char → List Char → Option (List Char)
  | [], s => some s
  | _ :: _, [] => none
  | c :: cs, x :: xs => if x = c then stripLit cs xs else none

/-- The literal `version` that anchors the pattern. -/
def vlit : List Char := ['v', 'e', 'r', 's', 'i', 'o', 'n']

/-- The groups of one match of the version-declaration pattern:
group 1 is `version` ++ `ws1` ++ `=` ++ `ws2` ++ `"`, groups 2-4 are the
digit runs `d1`, `d2`, `d3`, group 5 is `"`, and `rest` is the text after
the whole match. -/
structure VMatch where
  ws1 : List Char
  ws2 : List Char
  d1 : List Char
  d2 : List Char
  d3 : List Char
  rest : List Char
deriving Repr, DecidableEq

/-- The text consumed by a match (the whole matched span, `m.group(0)`). -/
def matchedStr (m : VMatch) : List Char :=
  vlit ++ (m.ws1 ++ ('=' :: (m.ws2 ++ ('"' :: (m.d1 ++ ('.' :: (m.d2 ++ ('.' :: (m.d3 ++ ['"'])))))))))

/-- Well-formedness of the groups of a match: the whitespace runs are
whitespace and the three digit runs are nonempty digit strings. -/
def MatchWf (m : VMatch) : Prop :=
  (∀ c ∈ m.ws1, pySpace c = true) ∧ (∀ c ∈ m.ws2, pySpace c = true) ∧
  m.d1 ≠ [] ∧ (∀ c ∈ m.d1, pyDigit c = true) ∧
  m.d2 ≠ [] ∧ (∀ c ∈ m.d2, pyDigit c = true) ∧
  m.d3 ≠ [] ∧ (∀ c ∈ m.d3, pyDigit c = true)

instance (m : VMatch) : Decidable (MatchWf m) := by
  unfold MatchWf; infer_instance

/-- Try the version-declaration pattern at the current position (the part of
the regex after the `^` anchor): literal `version`, whitespace, `=`,
whitespace, `"`, digits, `.`, digits, `.`, digits, `"`. -/
def matchAt (s : List Char) : Option VMatch :=
  (stripLit vlit s).bind fun s1 =>
  (stripLit ['='] (s1.dropWhile pySpace)).bind fun s2 =>
  (stripLit ['"'] (s2.dropWhile pySpace)).bind fun s3 =>
  if s3.takeWhile pyDigit = [] then none else
  (stripLit ['.'] (s3.dropWhile pyDigit)).bind fun s4 =>
  if s4.takeWhile pyDigit = [] then none else
  (stripLit ['.'] (s4.dropWhile pyDigit)).bind fun s5 =>
  if s5.takeWhile pyDigit = [] then none else
  (stripLit ['"'] (s5.dropWhile pyDigit)).map fun s6 =>
  ⟨s1.takeWhile pySpace, s2.takeWhile pySpace,
   s3.takeWhile pyDigit, s4.takeWhile pyDigit, s5.takeWhile pyDigit, s6⟩

/-- Leftmost search of the MULTILINE-anchored pattern, as `re.subn` /
`re.search` perform it: positions are tried left to right, and the `^`
anchor lets the pattern apply only at the start of the text (`atLS = true`
initially) and immediately after each newline.  Returns the text before the
match and the match itself. -/
def scanFrom : Bool → List Char → Option (List Char × VMatch)
  | atLS, s =>
    match (if atLS then matchAt s else none) with
    | some m => some ([], m)
    | none =>
      match s with
      | [] => none
      | c :: cs => (scanFrom (c == '\n') cs).map (fun pm => (c :: pm.1, pm.2))

/-- Decimal rendering of a natural number, recursion expressed through a fuel
parameter so that it is structural (the fuel is always sufficient because a
number below `10 ^ fuel` has at most `fuel` digits). -/
def natCharsAux : Nat → Nat → List Char → List Char
  | 0, _, acc => acc
  | fuel + 1, n, acc =>
    if n < 10 then Char.ofNat (48 + n % 10) :: acc
    else natCharsAux fuel (n / 10) (Char.ofNat (48 + n % 10) :: acc)

/-- Decimal rendering of a natural number, as Python's string formatting
`f"{major}.{minor}.{patch}"` renders each component. -/
def natChars (n : Nat) : List Char :=
  natCharsAux (n + 1) n []

/-- Reference form of the decimal rendering: most significant digits first,
final digit last. -/
def natCharsSpec (n : Nat) : List Char :=
  if n < 10 then [Char.ofNat (48 + n % 10)]
  else natCharsSpec (n / 10) ++ [Char.ofNat (48 + n % 10)]
termination_by n
decreasing_by exact Nat.div_lt_self (by omega) (by omega)

/-- Parsing of a digit string as `int` performs it (the digits are ASCII
`0`-`9` by construction of the pattern). -/
def digitsToNat (ds : List Char) : Nat :=
  ds.foldl (fun a c => a * 10 + (c.toNat - 48)) 0

/-- The increment rule of `bump_version`: `part == "major"` resets minor and
patch, `part == "minor"` resets patch, and every other value of `part`
(including the default `"patch"`) falls into the `else` branch and increments
the patch component only. -/
def bumpTriple (part : String) (ma mi pa : Nat) : Nat × Nat × Nat :=
  if part = "major" then (ma + 1, 0, 0)
  else if part = "minor" then (ma, mi + 1, 0)
  else (ma, mi, pa + 1)

/-- The replacement `repl` builds: the same group 1 (`version` + whitespace +
`=` + whitespace + `"`) and group 5 (`"`), with the three numeric components
re-rendered after the increment. -/
def bumpedMatch (part : String) (m : VMatch) : VMatch :=
  let t := bumpTriple part (digitsToNat m.d1) (digitsToNat m.d2) (digitsToNat m.d3)
  { m with d1 := natChars t.1, d2 := natChars t.2.1, d3 := natChars t.2.2 }

/-- A version triple formatted as `MAJOR.MINOR.PATCH`. -/
def verString (t : Nat × Nat × Nat) : List Char :=
  natChars t.1 ++ ('.' :: (natChars t.2.1 ++ ('.' :: natChars t.2.2)))

/-- The message of the `RuntimeError` raised when no match is found. -/
def errMsg : List Char :=
  "Could not find version = \"x.y.z\" in pyproject.toml".toList

/-- The fallback new-version string of the re-scan (`"unknown"`). -/
def unknownVer : List Char := "unknown".toList

/-- The second scan `re.search(r"^version\s*=\s*\"([0-9]+\.[0-9]+\.[0-9]+)\"", new_text, re.MULTILINE)`:
its pattern accepts exactly the same texts as the substitution pattern, and
its group 1 is the dotted numeric part. -/
def searchVersion (text : List Char) : Option (List Char) :=
  (scanFrom true text).map (fun pm => pm.2.d1 ++ ('.' :: (pm.2.d2 ++ ('.' :: pm.2.d3))))

/-- `bump_version(text, part)`: substitute the first match of the version
pattern (count=1), raising when there is none, then re-scan the new text for
the new version string, falling back to `"unknown"` when the re-scan fails. -/
def bump_version (text : List Char) (part : String) :
    Except (List Char) (List Char × List Char) :=
  match scanFrom true text with
  | none => Except.error errMsg
  | some (pre, m) =>
    let m2 := bumpedMatch part m
    let newText := pre ++ (matchedStr m2 ++ m.rest)
    let newVersion := (searchVersion newText).getD unknownVer
    Except.ok (newText, newVersion)

/-- The suffixes of a text that start immediately after a newline: together
with the text itself these are exactly the positions where the MULTILINE `^`
anchor lets the pattern apply. -/
def lineSuffixesAux : List Char → List (List Char)
  | [] => []
  | c :: cs => if c = '\n' then cs :: lineSuffixesAux cs else lineSuffixesAux cs

/-- All line-start suffixes of a text: the text itself and every suffix that
follows a newline. -/
def lineSuffixes (s : List Char) : List (List Char) :=
  s :: lineSuffixesAux s

/-- Number of line-start positions of the text at which the pattern matches
(the number of version declarations). -/
def countMatches : Bool → List Char → Nat
  | atLS, s =>
    (if atLS && (matchAt s).isSome then 1 else 0) +
    match s with
    | [] => 0
    | c :: cs => countMatches (c == '\n') cs

/-- Strict semantic-version ordering: lexicographic on (major, minor, patch). -/
def semverLt (a b : Nat × Nat × Nat) : Prop :=
  a.1 < b.1 ∨ (a.1 = b.1 ∧ (a.2.1 < b.2.1 ∨ (a.2.1 = b.2.1 ∧ a.2.2 < b.2.2)))

instance (a b : Nat × Nat × Nat) : Decidable (semverLt a b) := by
  unfold semverLt; infer_instance

/-- Observable steps of `main()`: reading the manifest, writing it back,
printing, cleaning the artifact directories, and invoking external commands. -/
inductive Event where
  | readManifest : Event
  | writeManifest : List Char → Event
  | printMsg : List Char → Event
  | cleanArtifacts : Event
  | runCmd : List String → Event
deriving Repr, DecidableEq

/-- The sequence of steps `main()` performs (external commands assumed to
succeed, as any failure aborts the remaining steps and writes nothing
further): read the manifest, bump — aborting right there when the bump
raises — then write the new content, print, clean, build, check and
optionally upload. -/
def mainTrace (pyExe : String) (fileContent : List Char) (part repo : String)
    (noUpload : Bool) (twUser twPass : Option String) :
    List Event × Except (List Char) Unit :=
  match bump_version fileContent part with
  | Except.error e => ([Event.readManifest], Except.error e)
  | Except.ok (newContent, newVersion) =>
    let base := [Event.readManifest, Event.writeManifest newContent,
      Event.printMsg ("Bumped version to ".toList ++ newVersion),
      Event.cleanArtifacts,
      Event.runCmd [pyExe, "-m", "build"],
      Event.runCmd [pyExe, "-m", "twine", "check", "dist/*"]]
    if noUpload then
      (base ++ [Event.printMsg "Build complete. Skipping upload.".toList], Except.ok ())
    else
      let uploadCmd := [pyExe, "-m", "twine", "upload"]
        ++ (if repo = "testpypi" then ["--repository", "testpypi"] else [])
        ++ (match twUser, twPass with
            | some u, some p =>
              if u ≠ "" ∧ p ≠ "" then ["--username", u, "--password", p] else []
            | _, _ => [])
        ++ ["dist/*"]
      (base ++ [Event.runCmd uploadCmd], Except.ok ())

lemma stripLit_sound {lit s r : List Char} (h : stripLit lit s = some r) :
    s = lit ++ r := by
  induction lit generalizing s with
  | nil => simp [stripLit] at h; simp [h]
  | cons c cs ih =>
    cases s with
    | nil => simp [stripLit] at h
    | cons x xs =>
      by_cases hx : x = c
      · simp [stripLit, hx] at h
        simp [hx, ih h]
      · simp [stripLit, hx] at h

lemma stripLit_append (lit r : List Char) : stripLit lit (lit ++ r) = some r := by
  induction lit with
  | nil => simp [stripLit]
  | cons c cs ih => simp [stripLit, ih]

lemma stripLit_cons (c : Char) (r : List Char) : stripLit [c] (c :: r) = some r := by
  simp [stripLit]

lemma takeWhile_middle {p : Char → Bool} {a : List Char} (x : Char) (t : List Char)
    (ha : ∀ c ∈ a, p c = true) (hx : p x = false) :
    (a ++ x :: t).takeWhile p = a ∧ (a ++ x :: t).dropWhile p = x :: t := by
  induction a with
  | nil => simp [List.takeWhile_cons, List.dropWhile_cons, hx]
  | cons c cs ih =>
    have hc : p c = true := ha c (by simp)
    have ih' := ih (fun d hd => ha d (by simp [hd]))
    simp [List.takeWhile_cons, List.dropWhile_cons, hc, ih'.1, ih'.2]

/-- Soundness of `matchAt`: a successful match decomposes the input as the
matched span followed by the rest, with well-formed groups. -/
lemma matchAt_sound {s : List Char} {m : VMatch} (h : matchAt s = some m) :
    s = matchedStr m ++ m.rest ∧ MatchWf m := by
  unfold matchAt at h
  cases h1 : stripLit vlit s with
  | none => simp [h1] at h
  | some s1 =>
  simp only [h1, Option.some_bind] at h
  cases h2 : stripLit ['='] (s1.dropWhile pySpace) with
  | none => simp [h2] at h
  | some s2 =>
  simp only [h2, Option.some_bind] at h
  cases h3 : stripLit ['"'] (s2.dropWhile pySpace) with
  | none => simp [h3] at h
  | some s3 =>
  simp only [h3, Option.some_bind] at h
  by_cases hd1 : s3.takeWhile pyDigit = []
  · simp [hd1] at h
  simp only [hd1, ite_false] at h
  cases h4 : stripLit ['.'] (s3.dropWhile pyDigit) with
  | none => simp [h4] at h
  | some s4 =>
  simp only [h4, Option.some_bind] at h
  by_cases hd2 : s4.takeWhile pyDigit = []
  · simp [hd2] at h
  simp only [hd2, ite_false] at h
  cases h5 : stripLit ['.'] (s4.dropWhile pyDigit) with
  | none => simp [h5] at h
  | some s5 =>
  simp only [h5, Option.some_bind] at h
  by_cases hd3 : s5.takeWhile pyDigit = []
  · simp [hd3] at h
  simp only [hd3, ite_false] at h
  cases h6 : stripLit ['"'] (s5.dropWhile pyDigit) with
  | none => simp [h6] at h
  | some s6 =>
  simp only [h6, Option.map_some', Option.some.injEq] at h
  subst h
  have e1 := stripLit_sound h1
  have e2 : s1.dropWhile pySpace = '=' :: s2 := by simpa using stripLit_sound h2
  have e3 : s2.dropWhile pySpace = '"' :: s3 := by simpa using stripLit_sound h3
  have e4 : s3.dropWhile pyDigit = '.' :: s4 := by simpa using stripLit_sound h4
  have e5 : s4.dropWhile pyDigit = '.' :: s5 := by simpa using stripLit_sound h5
  have e6 : s5.dropWhile pyDigit = '"' :: s6 := by simpa using stripLit_sound h6
  constructor
  · have g1 : s1.takeWhile pySpace ++ '=' :: s2 = s1 := by
      rw [← e2]; exact List.takeWhile_append_dropWhile _ _
    have g2 : s2.takeWhile pySpace ++ '"' :: s3 = s2 := by
      rw [← e3]; exact List.takeWhile_append_dropWhile _ _
    have g3 : s3.takeWhile pyDigit ++ '.' :: s4 = s3 := by
      rw [← e4]; exact List.takeWhile_append_dropWhile _ _
    have g4 : s4.takeWhile pyDigit ++ '.' :: s5 = s4 := by
      rw [← e5]; exact List.takeWhile_append_dropWhile _ _
    have g5 : s5.takeWhile pyDigit ++ '"' :: s6 = s5 := by
      rw [← e6]; exact List.takeWhile_append_dropWhile _ _
    simp only [matchedStr, List.append_assoc, List.cons_append, List.singleton_append,
      List.nil_append]
    rw [g5, g4, g3, g2, g1]
    exact e1
  · exact ⟨fun c hc => List.mem_takeWhile_imp hc,
           fun c hc => List.mem_takeWhile_imp hc,
           hd1, fun c hc => List.mem_takeWhile_imp hc,
           hd2, fun c hc => List.mem_takeWhile_imp hc,
           hd3, fun c hc => List.mem_takeWhile_imp hc⟩

/-- Completeness of `matchAt`: on an input that is a well-formed matched span
followed by anything, the parser succeeds with exactly those groups. -/
lemma matchAt_complete (m : VMatch) (hm : MatchWf m) :
    matchAt (matchedStr m ++ m.rest) = some m := by
  obtain ⟨hw1, hw2, hd1, hdd1, hd2, hdd2, hd3, hdd3⟩ := hm
  have heq : pySpace '=' = false := by decide
  have hq : pySpace '"' = false := by decide
  have hdot : pyDigit '.' = false := by decide
  have hqd : pyDigit '"' = false := by decide
  have A1 : matchedStr m ++ m.rest
      = vlit ++ (m.ws1 ++ ('=' :: (m.ws2 ++ ('"' :: (m.d1 ++ ('.' :: (m.d2 ++ ('.' :: (m.d3 ++ ('"' :: m.rest)))))))))) := by
    simp [matchedStr]
  unfold matchAt
  rw [A1, stripLit_append]
  simp only [Option.some_bind]
  rw [(takeWhile_middle '=' (m.ws2 ++ ('"' :: (m.d1 ++ ('.' :: (m.d2 ++ ('.' :: (m.d3 ++ ('"' :: m.rest)))))))) hw1 heq).2,
      stripLit_cons]
  simp only [Option.some_bind]
  rw [(takeWhile_middle '"' (m.d1 ++ ('.' :: (m.d2 ++ ('.' :: (m.d3 ++ ('"' :: m.rest)))))) hw2 hq).2,
      stripLit_cons]
  simp only [Option.some_bind]
  rw [(takeWhile_middle '.' (m.d2 ++ ('.' :: (m.d3 ++ ('"' :: m.rest)))) hdd1 hdot).1,
      (takeWhile_middle '.' (m.d2 ++ ('.' :: (m.d3 ++ ('"' :: m.rest)))) hdd1 hdot).2,
      if_neg hd1, stripLit_cons]
  simp only [Option.some_bind]
  rw [(takeWhile_middle '.' (m.d3 ++ ('"' :: m.rest)) hdd2 hdot).1,
      (takeWhile_middle '.' (m.d3 ++ ('"' :: m.rest)) hdd2 hdot).2,
      if_neg hd2, stripLit_cons]
  simp only [Option.some_bind]
  rw [(takeWhile_middle '"' m.rest hdd3 hqd).1,
      (takeWhile_middle '"' m.rest hdd3 hqd).2,
      if_neg hd3, stripLit_cons]
  simp only [Option.map_some']
  rw [(takeWhile_middle '=' (m.ws2 ++ ('"' :: (m.d1 ++ ('.' :: (m.d2 ++ ('.' :: (m.d3 ++ ('"' :: m.rest)))))))) hw1 heq).1,
      (takeWhile_middle '"' (m.d1 ++ ('.' :: (m.d2 ++ ('.' :: (m.d3 ++ ('"' :: m.rest)))))) hw2 hq).1]

/-- A successful scan decomposes the text as prefix, matched span, rest. -/
lemma scanFrom_sound :
    ∀ (s : List Char) (atLS : Bool) (pre : List Char) (m : VMatch),
      scanFrom atLS s = some (pre, m) →
      s = pre ++ (matchedStr m ++ m.rest) ∧ MatchWf m := by
  intro s
  induction s with
  | nil =>
    intro atLS pre m h
    rw [scanFrom] at h
    cases hA : (if atLS then matchAt [] else none) with
    | some m0 =>
      rw [hA] at h
      simp only [Option.some.injEq, Prod.mk.injEq] at h
      have hm : matchAt [] = some m0 := by
        cases atLS with
        | true => simpa using hA
        | false => simp at hA
      have := matchAt_sound hm
      rcases h with ⟨hpre, hm0⟩
      subst hpre; subst hm0
      simpa using this
    | none => rw [hA] at h; simp at h
  | cons c cs ih =>
    intro atLS pre m h
    rw [scanFrom] at h
    cases hA : (if atLS then matchAt (c :: cs) else none) with
    | some m0 =>
      rw [hA] at h
      simp only [Option.some.injEq, Prod.mk.injEq] at h
      have hm : matchAt (c :: cs) = some m0 := by
        cases atLS with
        | true => simpa using hA
        | false => simp at hA
      rcases h with ⟨hpre, hm0⟩
      subst hpre; subst hm0
      simpa using matchAt_sound hm
    | none =>
      rw [hA] at h
      simp only at h
      cases hrec : scanFrom (c == '\n') cs with
      | none => rw [hrec] at h; simp at h
      | some pm =>
        rw [hrec] at h
        simp only [Option.map_some', Option.some.injEq] at h
        obtain ⟨pre', m'⟩ := pm
        have := ih (c == '\n') pre' m' hrec
        cases h
        constructor
        · simp [this.1]
        · exact this.2

/-- The character `v` occurs in a well-formed matched span only at its first
position: the literal tail `ersion`, the whitespace runs, the digit runs and
the punctuation characters are all different from `v`. -/
lemma v_not_in_tail {m : VMatch} (hm : MatchWf m) :
    'v' ∉ (matchedStr m).drop 1 := by
  obtain ⟨hw1, hw2, _, hdd1, _, hdd2, _, hdd3⟩ := hm
  intro hmem
  simp [matchedStr, vlit] at hmem
  rcases hmem with h | h | h | h | h
  · exact absurd (hw1 'v' h) (by decide)
  · exact absurd (hw2 'v' h) (by decide)
  · exact absurd (hdd1 'v' h) (by decide)
  · exact absurd (hdd2 'v' h) (by decide)
  · exact absurd (hdd3 'v' h) (by decide)

/-- If the pattern matches at a position strictly before a segment that
starts with `v`, the whole matched span lies before that segment: a match
cannot straddle the boundary, because `v` occurs only at the head of a
matched span. -/
lemma matchAt_boundary {u y : List Char} {n : VMatch}
    (hu : u ≠ []) (hy : y.head? = some 'v')
    (h : matchAt (u ++ y) = some n) :
    ∃ u₂, u = matchedStr n ++ u₂ ∧ n.rest = u₂ ++ y := by
  obtain ⟨hdec, hwf⟩ := matchAt_sound h
  by_cases hle : (matchedStr n).length ≤ u.length
  · refine ⟨u.drop (matchedStr n).length, ?_, ?_⟩
    · have htake : u.take (matchedStr n).length = matchedStr n := by
        have : (u ++ y).take (matchedStr n).length
            = (matchedStr n ++ n.rest).take (matchedStr n).length := by rw [hdec]
        rw [List.take_append_of_le_length hle, List.take_left] at this
        exact this
      conv_lhs => rw [← List.take_append_drop (matchedStr n).length u]
      rw [htake]
    · have := hdec
      conv_lhs at this => rw [← List.take_append_drop (matchedStr n).length u]
      have htake : u.take (matchedStr n).length = matchedStr n := by
        have h2 : (u ++ y).take (matchedStr n).length
            = (matchedStr n ++ n.rest).take (matchedStr n).length := by rw [hdec]
        rw [List.take_append_of_le_length hle, List.take_left] at h2
        exact h2
      rw [htake, List.append_assoc] at this
      exact (List.append_cancel_left this).symm
  · exfalso
    push_neg at hle
    have hupre : matchedStr n = u ++ (matchedStr n).drop u.length := by
      have : (u ++ y).take u.length = (matchedStr n ++ n.rest).take u.length := by rw [hdec]
      rw [List.take_left] at this
      rw [List.take_append_of_le_length (Nat.le_of_lt hle)] at this
      conv_lhs => rw [← List.take_append_drop u.length (matchedStr n)]
      rw [← this]
    have hy2 : y = (matchedStr n).drop u.length ++ n.rest := by
      have := hdec
      rw [hupre, List.append_assoc] at this
      exact List.append_cancel_left this
    have hne : (matchedStr n).drop u.length ≠ [] := by
      intro h0
      have := congrArg List.length h0
      simp [List.length_drop] at this
      omega
    have hvmem : 'v' ∈ (matchedStr n).drop u.length := by
      obtain ⟨c, t', hct⟩ := List.exists_cons_of_ne_nil hne
      have : y.head? = some c := by rw [hy2, hct]; simp
      rw [hy] at this
      have hc : c = 'v' := by injection this with h'; exact h'.symm
      rw [hct, hc]; simp
    have hulen : 1 ≤ u.length := by
      cases u with
      | nil => exact absurd rfl hu
      | cons a as => simp
    have : 'v' ∈ (matchedStr n).drop 1 := by
      have hdd : (matchedStr n).drop u.length
          = ((matchedStr n).drop 1).drop (u.length - 1) := by
        rw [List.drop_drop]
        congr 1
        omega
      rw [hdd] at hvmem
      exact List.mem_of_mem_drop hvmem
    exact v_not_in_tail hwf this

lemma matchAt_nil : matchAt ([] : List Char) = none := by decide

lemma matchedStr_head (m : VMatch) (r : List Char) :
    (matchedStr m ++ r).head? = some 'v' := by
  simp [matchedStr, vlit]

lemma scanFrom_true_match {s : List Char} {m : VMatch} (h : matchAt s = some m) :
    scanFrom true s = some ([], m) := by
  cases s with
  | nil => rw [matchAt_nil] at h; cases h
  | cons c cs => rw [scanFrom, if_pos rfl, h]

/-- Replacing the first matched span of a text by any well-formed matched
span leaves the scan finding exactly the replacement, at the same position:
a match at an earlier position would either have been a match of the original
text or would straddle the boundary of the replaced span, which `v_not_in_tail`
rules out. -/
lemma scanFrom_replace :
    ∀ (s : List Char) (atLS : Bool) (pre : List Char) (m : VMatch),
      scanFrom atLS s = some (pre, m) →
      ∀ m' : VMatch, MatchWf m' →
        scanFrom atLS (pre ++ (matchedStr m' ++ m'.rest)) = some (pre, m') := by
  intro s
  induction s with
  | nil =>
    intro atLS pre m h m' hm'
    rw [scanFrom] at h
    cases atLS <;> simp [matchAt_nil] at h
  | cons c cs ih =>
    intro atLS pre m h m' hm'
    rw [scanFrom] at h
    cases hA : (if atLS then matchAt (c :: cs) else none) with
    | some m0 =>
      rw [hA] at h
      simp only [Option.some.injEq, Prod.mk.injEq] at h
      obtain ⟨hpre, hm0⟩ := h
      subst hpre
      rw [List.nil_append]
      have hAtrue : atLS = true := by
        cases atLS with
        | false => simp at hA
        | true => rfl
      subst hAtrue
      exact scanFrom_true_match (matchAt_complete m' hm')
    | none =>
      rw [hA] at h
      simp only at h
      cases hrec : scanFrom (c == '\n') cs with
      | none => rw [hrec] at h; simp at h
      | some pm =>
        rw [hrec] at h
        simp only [Option.map_some', Option.some.injEq] at h
        obtain ⟨pre', m1⟩ := pm
        cases h
        have ihc := ih (c == '\n') pre' m1 hrec m' hm'
        have hcs := scanFrom_sound cs (c == '\n') pre' m1 hrec
        cases atLS with
        | false =>
          rw [List.cons_append, scanFrom]
          show (scanFrom (c == '\n') (pre' ++ (matchedStr m' ++ m'.rest))).map
              (fun pm => (c :: pm.1, pm.2)) = some (c :: pre', m')
          rw [ihc]
          rfl
        | true =>
          have hold : matchAt (c :: cs) = none := by simpa using hA
          have hnone : matchAt (c :: (pre' ++ (matchedStr m' ++ m'.rest))) = none := by
            rw [show c :: (pre' ++ (matchedStr m' ++ m'.rest))
                  = (c :: pre') ++ (matchedStr m' ++ m'.rest) by simp]
            cases hn : matchAt ((c :: pre') ++ (matchedStr m' ++ m'.rest)) with
            | none => rfl
            | some n =>
              exfalso
              have hwfn : MatchWf n := (matchAt_sound hn).2
              obtain ⟨u₂, hu2, _⟩ :=
                matchAt_boundary (by simp) (matchedStr_head m' m'.rest) hn
              have hwfn2 : MatchWf
                  (⟨n.ws1, n.ws2, n.d1, n.d2, n.d3,
                    u₂ ++ (matchedStr m1 ++ m1.rest)⟩ : VMatch) := hwfn
              have hc2 := matchAt_complete
                ⟨n.ws1, n.ws2, n.d1, n.d2, n.d3, u₂ ++ (matchedStr m1 ++ m1.rest)⟩ hwfn2
              have hcontra : matchAt ((c :: pre') ++ (matchedStr m1 ++ m1.rest))
                  = some ⟨n.ws1, n.ws2, n.d1, n.d2, n.d3, u₂ ++ (matchedStr m1 ++ m1.rest)⟩ := by
                rw [hu2, List.append_assoc]
                exact hc2
              have hccs : (c :: cs) = (c :: pre') ++ (matchedStr m1 ++ m1.rest) := by
                simp [hcs.1]
              rw [hccs, hcontra] at hold
              simp at hold
          rw [List.cons_append, scanFrom, if_pos rfl, hnone]
          show (scanFrom (c == '\n') (pre' ++ (matchedStr m' ++ m'.rest))).map
              (fun pm => (c :: pm.1, pm.2)) = some (c :: pre', m')
          rw [ihc]
          rfl

lemma natChars_def (n : Nat) :
    natCharsSpec n = if n < 10 then [Char.ofNat (48 + n % 10)]
      else natCharsSpec (n / 10) ++ [Char.ofNat (48 + n % 10)] := by
  rw [natCharsSpec]

lemma natCharsAux_eq_spec :
    ∀ (fuel n : Nat) (acc : List Char), n < fuel →
      natCharsAux fuel n acc = natCharsSpec n ++ acc := by
  intro fuel
  induction fuel with
  | zero => intro n acc h; omega
  | succ fuel ih =>
    intro n acc h
    rw [natCharsAux, natChars_def]
    by_cases hn : n < 10
    · simp [hn]
    · simp only [hn, if_false, ite_false]
      have hlt : n / 10 < fuel := by
        have hd : n / 10 < n := Nat.div_lt_self (by omega) (by omega)
        omega
      rw [ih (n / 10) (Char.ofNat (48 + n % 10) :: acc) hlt]
      simp

lemma natChars_eq_spec (n : Nat) : natChars n = natCharsSpec n := by
  rw [natChars, natCharsAux_eq_spec (n + 1) n [] (by omega)]
  simp

lemma digitChar_isDigit {k : Nat} (hk : k < 10) :
    pyDigit (Char.ofNat (48 + k)) = true := by
  interval_cases k <;> decide

lemma digitChar_toNat {k : Nat} (hk : k < 10) :
    (Char.ofNat (48 + k)).toNat = 48 + k := by
  interval_cases k <;> decide

lemma natChars_ne_nil (n : Nat) : natChars n ≠ [] := by
  rw [natChars_eq_spec, natChars_def]
  by_cases h : n < 10 <;> simp [h]

lemma natChars_digits (n : Nat) : ∀ c ∈ natChars n, pyDigit c = true := by
  rw [natChars_eq_spec]
  induction n using Nat.strong_induction_on with
  | _ n ih =>
    intro c hc
    rw [natChars_def] at hc
    by_cases h : n < 10
    · simp [h] at hc
      subst hc
      exact digitChar_isDigit (Nat.mod_lt n (by omega))
    · simp [h] at hc
      rcases hc with hc | hc
      · exact ih (n / 10) (Nat.div_lt_self (by omega) (by omega)) c hc
      · subst hc
        exact digitChar_isDigit (Nat.mod_lt n (by omega))

lemma digitsToNat_natChars (n : Nat) : digitsToNat (natChars n) = n := by
  rw [natChars_eq_spec]
  induction n using Nat.strong_induction_on with
  | _ n ih =>
    rw [natChars_def]
    by_cases h : n < 10
    · simp only [h, if_true, digitsToNat, List.foldl_cons, List.foldl_nil]
      rw [digitChar_toNat (Nat.mod_lt n (by omega))]
      omega
    · simp only [h, if_false, ite_false, digitsToNat, List.foldl_append,
        List.foldl_cons, List.foldl_nil]
      have hrec : List.foldl (fun a c => a * 10 + (c.toNat - 48)) 0 (natCharsSpec (n / 10))
          = n / 10 := ih (n / 10) (Nat.div_lt_self (by omega) (by omega))
      rw [hrec, digitChar_toNat (Nat.mod_lt n (by omega))]
      have := Nat.div_add_mod n 10
      omega

lemma bumpedMatch_wf (part : String) (m : VMatch) (hm : MatchWf m) :
    MatchWf (bumpedMatch part m) := by
  obtain ⟨hw1, hw2, _, _, _, _, _, _⟩ := hm
  exact ⟨hw1, hw2,
    natChars_ne_nil _, natChars_digits _,
    natChars_ne_nil _, natChars_digits _,
    natChars_ne_nil _, natChars_digits _⟩

/-- Central helper: on a text whose scan succeeds, `bump_version` returns the
surgically rewritten text, and the re-scanned new-version string equals the
arithmetically computed one. -/
lemma bump_ok {text pre : List Char} {m : VMatch} (part : String)
    (h : scanFrom true text = some (pre, m)) :
    bump_version text part = Except.ok
      (pre ++ (matchedStr (bumpedMatch part m) ++ m.rest),
       verString (bumpTriple part (digitsToNat m.d1) (digitsToNat m.d2) (digitsToNat m.d3))) := by
  have hwf : MatchWf m := (scanFrom_sound text true pre m h).2
  have hwf2 : MatchWf (bumpedMatch part m) := bumpedMatch_wf part m hwf
  have hres : scanFrom true (pre ++ (matchedStr (bumpedMatch part m) ++ m.rest))
      = some (pre, bumpedMatch part m) :=
    scanFrom_replace text true pre m h (bumpedMatch part m) hwf2
  have hsv : searchVersion (pre ++ (matchedStr (bumpedMatch part m) ++ m.rest))
      = some (verString (bumpTriple part (digitsToNat m.d1) (digitsToNat m.d2) (digitsToNat m.d3))) := by
    unfold searchVersion
    rw [hres]
    rfl
  unfold bump_version
  rw [h]
  show Except.ok
      (pre ++ (matchedStr (bumpedMatch part m) ++ m.rest),
       (searchVersion (pre ++ (matchedStr (bumpedMatch part m) ++ m.rest))).getD unknownVer)
    = _
  rw [hsv]
  rfl

lemma scanFrom_none_of_lineFail :
    ∀ (s : List Char) (atLS : Bool),
      (atLS = true → matchAt s = none) →
      (∀ t ∈ lineSuffixesAux s, matchAt t = none) →
      scanFrom atLS s = none := by
  intro s
  induction s with
  | nil =>
    intro atLS h1 _
    rw [scanFrom]
    cases atLS <;> simp [matchAt_nil]
  | cons c cs ih =>
    intro atLS h1 h2
    rw [scanFrom]
    have hA : (if atLS then matchAt (c :: cs) else none) = none := by
      cases atLS with
      | false => rfl
      | true => rw [if_pos rfl]; exact h1 rfl
    rw [hA]
    have hrec : scanFrom (c == '\n') cs = none := by
      apply ih
      · intro hc
        have hcn : c = '\n' := by simpa using hc
        have : cs ∈ lineSuffixesAux (c :: cs) := by
          simp [lineSuffixesAux, hcn]
        exact h2 cs this
      · intro t ht
        apply h2
        by_cases hcn : c = '\n' <;> simp [lineSuffixesAux, hcn, ht]
    show (scanFrom (c == '\n') cs).map (fun pm => (c :: pm.1, pm.2)) = none
    rw [hrec]
    rfl

lemma scanFrom_none_lineFail :
    ∀ (s : List Char) (atLS : Bool),
      scanFrom atLS s = none →
      (atLS = true → matchAt s = none) ∧ (∀ t ∈ lineSuffixesAux s, matchAt t = none) := by
  intro s
  induction s with
  | nil =>
    intro atLS _
    exact ⟨fun _ => matchAt_nil, by simp [lineSuffixesAux]⟩
  | cons c cs ih =>
    intro atLS h
    rw [scanFrom] at h
    cases hA : (if atLS then matchAt (c :: cs) else none) with
    | some m0 => rw [hA] at h; simp at h
    | none =>
    rw [hA] at h
    simp only at h
    have hrec : scanFrom (c == '\n') cs = none := by
      cases hr : scanFrom (c == '\n') cs with
      | none => rfl
      | some pm => rw [hr] at h; simp at h
    have ihc := ih (c == '\n') hrec
    constructor
    · intro ha
      subst ha
      simpa using hA
    · intro t ht
      by_cases hcn : c = '\n'
      · simp [lineSuffixesAux, hcn] at ht
        rcases ht with ht | ht
        · subst ht
          exact ihc.1 (by simp [hcn])
        · exact ihc.2 t ht
      · simp [lineSuffixesAux, hcn] at ht
        exact ihc.2 t ht

lemma bumpTriple_gt (part : String) (ma mi pa : Nat) :
    semverLt (ma, mi, pa) (bumpTriple part ma mi pa) := by
  unfold bumpTriple semverLt
  split_ifs <;> simp

lemma scanFrom_after_bump (part : String) {text pre : List Char} {m : VMatch}
    (h : scanFrom true text = some (pre, m)) :
    scanFrom true (pre ++ (matchedStr (bumpedMatch part m) ++ m.rest))
      = some (pre, bumpedMatch part m) :=
  scanFrom_replace text true pre m h (bumpedMatch part m)
    (bumpedMatch_wf part m (scanFrom_sound text true pre m h).2)

lemma searchVersion_after_bump (part : String) {text pre : List Char} {m : VMatch}
    (h : scanFrom true text = some (pre, m)) :
    searchVersion (pre ++ (matchedStr (bumpedMatch part m) ++ m.rest))
      = some (verString (bumpTriple part (digitsToNat m.d1) (digitsToNat m.d2) (digitsToNat m.d3))) := by
  unfold searchVersion
  rw [scanFrom_after_bump part h]
  rfl

lemma matchAt_cons_ne_v {c : Char} (t : List Char) (hc : c ≠ 'v') :
    matchAt (c :: t) = none := by
  unfold matchAt
  rw [show stripLit vlit (c :: t) = none from by simp [vlit, stripLit, hc]]
  rfl

lemma pySpace_ne_v {c : Char} (h : pySpace c = true) : c ≠ 'v' := by
  intro hv
  subst hv
  exact absurd h (by decide)

lemma scanFrom_match_pos :
    ∀ (s : List Char) (atLS : Bool) (pre : List Char) (m : VMatch),
      scanFrom atLS s = some (pre, m) →
      matchAt (matchedStr m ++ m.rest) = some m ∧
        ((matchedStr m ++ m.rest) ∈ lineSuffixesAux s ∨
          (atLS = true ∧ pre = [] ∧ s = matchedStr m ++ m.rest)) := by
  intro s
  induction s with
  | nil =>
    intro atLS pre m h
    rw [scanFrom] at h
    cases atLS <;> simp [matchAt_nil] at h
  | cons c cs ih =>
    intro atLS pre m h
    rw [scanFrom] at h
    cases hA : (if atLS then matchAt (c :: cs) else none) with
    | some m0 =>
      rw [hA] at h
      simp only [Option.some.injEq, Prod.mk.injEq] at h
      obtain ⟨hpre, hm0⟩ := h
      have hAtrue : atLS = true := by
        cases atLS with
        | false => simp at hA
        | true => rfl
      subst hAtrue
      have hm : matchAt (c :: cs) = some m0 := by simpa using hA
      subst hm0
      have hdec := (matchAt_sound hm).1
      refine ⟨?_, Or.inr ⟨rfl, hpre.symm, hdec⟩⟩
      rw [← hdec]
      exact hm
    | none =>
      rw [hA] at h
      simp only at h
      cases hrec : scanFrom (c == '\n') cs with
      | none => rw [hrec] at h; simp at h
      | some pm =>
        rw [hrec] at h
        simp only [Option.map_some', Option.some.injEq] at h
        obtain ⟨pre', m1⟩ := pm
        cases h
        obtain ⟨hm, hpos⟩ := ih (c == '\n') pre' m1 hrec
        refine ⟨hm, Or.inl ?_⟩
        rcases hpos with hpos | ⟨hLS, _, hcs⟩
        · by_cases hcn : c = '\n' <;> simp [lineSuffixesAux, hcn, hpos]
        · have hcn : c = '\n' := by simpa using hLS
          simp [lineSuffixesAux, hcn, ← hcs]

/-- Claim C1: for every text whose first line-anchored version declaration
parses as (X, Y, Z), the bump rewrites exactly that declaration to the
incremented version: part `major` gives (X+1, 0, 0), part `minor` gives
(X, Y+1, 0), part `patch` gives (X, Y, Z+1), each rendered back into the
same declaration shape, and returns the new dotted version string. -/
theorem C1_increment_rules (text pre : List Char) (m : VMatch) (X Y Z : Nat)
    (h : scanFrom true text = some (pre, m))
    (hX : digitsToNat m.d1 = X) (hY : digitsToNat m.d2 = Y) (hZ : digitsToNat m.d3 = Z) :
    bump_version text "major" = Except.ok
      (pre ++ (matchedStr { m with d1 := natChars (X + 1), d2 := natChars 0, d3 := natChars 0 } ++ m.rest),
       verString (X + 1, 0, 0)) ∧
    bump_version text "minor" = Except.ok
      (pre ++ (matchedStr { m with d1 := natChars X, d2 := natChars (Y + 1), d3 := natChars 0 } ++ m.rest),
       verString (X, Y + 1, 0)) ∧
    bump_version text "patch" = Except.ok
      (pre ++ (matchedStr { m with d1 := natChars X, d2 := natChars Y, d3 := natChars (Z + 1) } ++ m.rest),
       verString (X, Y, Z + 1)) := by
  subst hX; subst hY; subst hZ
  exact ⟨bump_ok "major" h, bump_ok "minor" h, bump_ok "patch" h⟩

theorem C1_witness :
    (scanFrom true "version = \"1.2.3\"".toList
        = some ([], ⟨[' '], [' '], ['1'], ['2'], ['3'], []⟩)) ∧
    bump_version "version = \"1.2.3\"".toList "major"
      = Except.ok ("version = \"2.0.0\"".toList, "2.0.0".toList) ∧
    bump_version "version = \"1.2.3\"".toList "minor"
      = Except.ok ("version = \"1.3.0\"".toList, "1.3.0".toList) ∧
    bump_version "version = \"1.2.3\"".toList "patch"
      = Except.ok ("version = \"1.2.4\"".toList, "1.2.4".toList) := by
  have h := C1_increment_rules "version = \"1.2.3\"".toList []
    ⟨[' '], [' '], ['1'], ['2'], ['3'], []⟩ 1 2 3
    (by decide) (by decide) (by decide) (by decide)
  exact ⟨by decide, h.1, h.2.1, h.2.2⟩

/-- Claim C2: the bump fails, and fails with exactly the could-not-find
message, if and only if no line-start suffix of the text matches the
version-declaration pattern; when a match exists it returns normally, so no
other error path exists. -/
theorem C2_error_iff_no_match (text : List Char) (part : String) :
    (bump_version text part = Except.error errMsg ↔
      ∀ t ∈ lineSuffixes text, matchAt t = none) ∧
    (∀ e, bump_version text part = Except.error e → e = errMsg) ∧
    ((∃ t ∈ lineSuffixes text, matchAt t ≠ none) →
      ∃ r, bump_version text part = Except.ok r) := by
  cases hs : scanFrom true text with
  | none =>
    have hb : bump_version text part = Except.error errMsg := by
      unfold bump_version; rw [hs]
    have hall := scanFrom_none_lineFail text true hs
    refine ⟨⟨fun _ => ?_, fun _ => hb⟩, ?_, ?_⟩
    · intro t ht
      simp only [lineSuffixes, List.mem_cons] at ht
      rcases ht with rfl | ht
      · exact hall.1 rfl
      · exact hall.2 t ht
    · intro e he
      rw [hb] at he
      injection he with he
      exact he.symm
    · intro ⟨t, ht, hmt⟩
      exfalso
      apply hmt
      simp only [lineSuffixes, List.mem_cons] at ht
      rcases ht with rfl | ht
      · exact hall.1 rfl
      · exact hall.2 t ht
  | some pm =>
    obtain ⟨pre, m⟩ := pm
    have hb := bump_ok part hs
    have hmem := scanFrom_match_pos text true pre m hs
    refine ⟨⟨fun hcontra => ?_, fun hnone => ?_⟩, ?_, ?_⟩
    · rw [hb] at hcontra
      cases hcontra
    · exfalso
      have hin : (matchedStr m ++ m.rest) ∈ lineSuffixes text := by
        rcases hmem.2 with hin | ⟨_, _, htext⟩
        · simp [lineSuffixes, hin]
        · simp [lineSuffixes, ← htext]
      rw [hnone _ hin] at hmem
      cases hmem.1
    · intro e he
      rw [hb] at he
      cases he
    · intro _
      exact ⟨_, hb⟩

theorem C2_witness :
    (bump_version "name = \"geg\"\ndescription = \"x\"\n".toList "patch"
      = Except.error errMsg) ∧
    (∃ r, bump_version "name = \"geg\"\nversion = \"0.4.1\"\n".toList "patch"
      = Except.ok r) := by
  refine ⟨?_, ?_⟩
  · exact (C2_error_iff_no_match "name = \"geg\"\ndescription = \"x\"\n".toList "patch").1.mpr
      (by decide)
  · exact (C2_error_iff_no_match "name = \"geg\"\nversion = \"0.4.1\"\n".toList "patch").2.2
      ⟨"version = \"0.4.1\"\n".toList, by decide, by decide⟩

/-- Claim C3: on a manifest with exactly one version declaration, bumping and
re-parsing the output yields a version strictly greater than the original
under the lexicographic semantic-version order, for every granularity. -/
theorem C3_strictly_increases (text pre : List Char) (m : VMatch) (part : String)
    (h : scanFrom true text = some (pre, m))
    (_hcount : countMatches true text = 1) :
    ∃ nt nv pre2 m2, bump_version text part = Except.ok (nt, nv) ∧
      scanFrom true nt = some (pre2, m2) ∧
      semverLt (digitsToNat m.d1, digitsToNat m.d2, digitsToNat m.d3)
        (digitsToNat m2.d1, digitsToNat m2.d2, digitsToNat m2.d3) := by
  refine ⟨_, _, pre, bumpedMatch part m, bump_ok part h, scanFrom_after_bump part h, ?_⟩
  show semverLt _
      (digitsToNat (natChars (bumpTriple part (digitsToNat m.d1) (digitsToNat m.d2) (digitsToNat m.d3)).1),
       digitsToNat (natChars (bumpTriple part (digitsToNat m.d1) (digitsToNat m.d2) (digitsToNat m.d3)).2.1),
       digitsToNat (natChars (bumpTriple part (digitsToNat m.d1) (digitsToNat m.d2) (digitsToNat m.d3)).2.2))
  rw [digitsToNat_natChars, digitsToNat_natChars, digitsToNat_natChars]
  exact bumpTriple_gt part (digitsToNat m.d1) (digitsToNat m.d2) (digitsToNat m.d3)

theorem C3_witness :
    ∃ nt nv pre2 m2,
      bump_version "version = \"1.2.3\"\n".toList "minor" = Except.ok (nt, nv) ∧
      scanFrom true nt = some (pre2, m2) ∧
      semverLt (1, 2, 3) (digitsToNat m2.d1, digitsToNat m2.d2, digitsToNat m2.d3) :=
  C3_strictly_increases "version = \"1.2.3\"\n".toList []
    ⟨[' '], [' '], ['1'], ['2'], ['3'], ['\n']⟩ "minor" (by decide) (by decide)

/-- Claim C4: frame property of the rewrite — the input decomposes as prefix,
matched declaration, suffix, and the output is exactly the same prefix, one
replaced declaration, and the same suffix, byte for byte; exactly one
replacement occurs. -/
theorem C4_frame (text pre : List Char) (m : VMatch) (part : String)
    (h : scanFrom true text = some (pre, m)) :
    text = pre ++ (matchedStr m ++ m.rest) ∧
    bump_version text part = Except.ok
      (pre ++ (matchedStr (bumpedMatch part m) ++ m.rest),
       verString (bumpTriple part (digitsToNat m.d1) (digitsToNat m.d2) (digitsToNat m.d3))) :=
  ⟨(scanFrom_sound text true pre m h).1, bump_ok part h⟩

theorem C4_witness :
    ("name = \"g\"\nversion = \"1.2.3\"\n# end\n".toList
      = "name = \"g\"\n".toList
        ++ (matchedStr ⟨[' '], [' '], ['1'], ['2'], ['3'], "\n# end\n".toList⟩
            ++ "\n# end\n".toList)) ∧
    bump_version "name = \"g\"\nversion = \"1.2.3\"\n# end\n".toList "patch"
      = Except.ok ("name = \"g\"\nversion = \"1.2.4\"\n# end\n".toList, "1.2.4".toList) := by
  have h := C4_frame "name = \"g\"\nversion = \"1.2.3\"\n# end\n".toList
    "name = \"g\"\n".toList
    ⟨[' '], [' '], ['1'], ['2'], ['3'], "\n# end\n".toList⟩ "patch" (by decide)
  exact ⟨h.1, h.2⟩

/-- Claim C5: with two or more matching declarations, the bump is not an
error; only the first declaration (the one after `pre`) is rewritten, and the
suffix `m.rest` — which contains every later declaration — is reproduced
verbatim in the output, where the rescan still finds the first declaration at
the same position. -/
theorem C5_first_match_only (text pre : List Char) (m : VMatch) (part : String)
    (h : scanFrom true text = some (pre, m))
    (_hcount : 2 ≤ countMatches true text) :
    bump_version text part = Except.ok
      (pre ++ (matchedStr (bumpedMatch part m) ++ m.rest),
       verString (bumpTriple part (digitsToNat m.d1) (digitsToNat m.d2) (digitsToNat m.d3))) ∧
    text = pre ++ (matchedStr m ++ m.rest) ∧
    scanFrom true (pre ++ (matchedStr (bumpedMatch part m) ++ m.rest))
      = some (pre, bumpedMatch part m) :=
  ⟨bump_ok part h, (scanFrom_sound text true pre m h).1, scanFrom_after_bump part h⟩

theorem C5_witness :
    bump_version "version = \"1.2.3\"\nversion = \"4.5.6\"\n".toList "patch"
      = Except.ok ("version = \"1.2.4\"\nversion = \"4.5.6\"\n".toList, "1.2.4".toList) ∧
    (2 ≤ countMatches true "version = \"1.2.3\"\nversion = \"4.5.6\"\n".toList) := by
  have h := C5_first_match_only "version = \"1.2.3\"\nversion = \"4.5.6\"\n".toList []
    ⟨[' '], [' '], ['1'], ['2'], ['3'], "\nversion = \"4.5.6\"\n".toList⟩ "patch"
    (by decide) (by decide)
  exact ⟨h.1, by decide⟩

/-- Claim C6: the new-version string that the bump returns is obtained by
re-scanning the rewritten text, the re-scan always finds a declaration (the
replacement itself), and the string it extracts equals the arithmetically
incremented version formatted as MAJOR.MINOR.PATCH — the two computations
agree. -/
theorem C6_rescan_agrees (text pre : List Char) (m : VMatch) (part : String)
    (h : scanFrom true text = some (pre, m)) :
    ∃ nt, bump_version text part = Except.ok
        (nt, verString (bumpTriple part (digitsToNat m.d1) (digitsToNat m.d2) (digitsToNat m.d3))) ∧
      searchVersion nt
        = some (verString (bumpTriple part (digitsToNat m.d1) (digitsToNat m.d2) (digitsToNat m.d3))) ∧
      (searchVersion nt).getD unknownVer
        = verString (bumpTriple part (digitsToNat m.d1) (digitsToNat m.d2) (digitsToNat m.d3)) := by
  refine ⟨_, bump_ok part h, searchVersion_after_bump part h, ?_⟩
  rw [searchVersion_after_bump part h]
  rfl

theorem C6_witness :
    ∃ nt, bump_version "version=\"0.9.9\"\n".toList "minor"
        = Except.ok (nt, verString (0, 10, 0)) ∧
      searchVersion nt = some (verString (0, 10, 0)) ∧
      (searchVersion nt).getD unknownVer = verString (0, 10, 0) :=
  C6_rescan_agrees "version=\"0.9.9\"\n".toList [] ⟨[], [], ['0'], ['9'], ['9'], ['\n']⟩
    "minor" (by decide)

/-- Claim C7: in the orchestration of `main`, when the bump fails because no
declaration is found, the run aborts right after the read — the manifest
write never happens; and a write event can occur only with the content that a
successful bump returned. -/
theorem C7_no_write_on_error (pyExe : String) (fileContent : List Char)
    (part repo : String) (noUpload : Bool) (twUser twPass : Option String) :
    (scanFrom true fileContent = none →
      mainTrace pyExe fileContent part repo noUpload twUser twPass
        = ([Event.readManifest], Except.error errMsg) ∧
      ∀ c, Event.writeManifest c ∉
        (mainTrace pyExe fileContent part repo noUpload twUser twPass).1) ∧
    (∀ c, Event.writeManifest c ∈
        (mainTrace pyExe fileContent part repo noUpload twUser twPass).1 →
      ∃ nv, bump_version fileContent part = Except.ok (c, nv)) := by
  constructor
  · intro hs
    have hb : bump_version fileContent part = Except.error errMsg := by
      unfold bump_version; rw [hs]
    have htr : mainTrace pyExe fileContent part repo noUpload twUser twPass
        = ([Event.readManifest], Except.error errMsg) := by
      unfold mainTrace; rw [hb]
    refine ⟨htr, ?_⟩
    intro c hc
    rw [htr] at hc
    simp at hc
  · intro c hc
    cases hb : bump_version fileContent part with
    | error e =>
      unfold mainTrace at hc
      rw [hb] at hc
      simp at hc
    | ok p =>
      obtain ⟨nc, nv⟩ := p
      refine ⟨nv, ?_⟩
      unfold mainTrace at hc
      rw [hb] at hc
      cases noUpload <;> simp at hc <;> rw [hc]

theorem C7_witness :
    mainTrace "python3" "[project]\nname = \"geg\"\n".toList "patch" "pypi" false
        (some "u") (some "p")
      = ([Event.readManifest], Except.error errMsg) ∧
    ∀ c, Event.writeManifest c ∉
      (mainTrace "python3" "[project]\nname = \"geg\"\n".toList "patch" "pypi" false
        (some "u") (some "p")).1 :=
  (C7_no_write_on_error "python3" "[project]\nname = \"geg\"\n".toList "patch" "pypi" false
    (some "u") (some "p")).1 (by decide)

/-- Claim C8: every `part` value other than `"major"` and `"minor"` —
including arbitrary strings outside the documented set — falls into the
`else` branch and behaves exactly like a `"patch"` bump. -/
theorem C8_default_is_patch (text : List Char) (part : String)
    (h1 : part ≠ "major") (h2 : part ≠ "minor") :
    bump_version text part = bump_version text "patch" := by
  have hbm : ∀ mm : VMatch, bumpedMatch part mm = bumpedMatch "patch" mm := by
    intro mm
    unfold bumpedMatch bumpTriple
    rw [if_neg h1, if_neg h2,
      if_neg (show ¬("patch" = "major") by decide),
      if_neg (show ¬("patch" = "minor") by decide)]
  unfold bump_version
  simp only [hbm]

theorem C8_witness :
    ("frobnicate" ≠ "major") ∧ ("frobnicate" ≠ "minor") ∧
    bump_version "version = \"1.2.3\"".toList "frobnicate"
      = bump_version "version = \"1.2.3\"".toList "patch" :=
  ⟨by decide, by decide,
    C8_default_is_patch "version = \"1.2.3\"".toList "frobnicate" (by decide) (by decide)⟩

/-- Claim C9: the pattern applies only with `version` at the very start of a
line.  First part: a whitespace-indented declaration never matches at its
line start.  Second part: on a text in which every line is empty or starts
with a character other than `v` (for instance an indentation character),
the bump raises the no-declaration error.  Whitespace is tolerated around
`=` (it is part of the matched groups), never before `version`. -/
theorem C9_anchor_at_line_start :
    (∀ (ws : List Char) (s : List Char), ws ≠ [] →
      (∀ c ∈ ws, pySpace c = true) → matchAt (ws ++ s) = none) ∧
    (∀ (text : List Char) (part : String),
      (∀ t ∈ lineSuffixes text, t = [] ∨ ∃ c t2, t = c :: t2 ∧ c ≠ 'v') →
      bump_version text part = Except.error errMsg) := by
  constructor
  · intro ws s hne hws
    cases ws with
    | nil => exact absurd rfl hne
    | cons c ws' =>
      rw [List.cons_append]
      exact matchAt_cons_ne_v _ (pySpace_ne_v (hws c (by simp)))
  · intro text part hlines
    have hfail : ∀ t ∈ lineSuffixes text, matchAt t = none := by
      intro t ht
      rcases hlines t ht with rfl | ⟨c, t2, rfl, hc⟩
      · exact matchAt_nil
      · exact matchAt_cons_ne_v t2 hc
    have hs : scanFrom true text = none := by
      apply scanFrom_none_of_lineFail text true
      · intro _
        exact hfail text (by simp [lineSuffixes])
      · intro t ht
        exact hfail t (by simp [lineSuffixes, ht])
    unfold bump_version
    rw [hs]

theorem C9_witness :
    matchAt ("  " ++ "version = \"1.2.3\"").toList = none ∧
    bump_version "  version = \"1.2.3\"".toList "patch" = Except.error errMsg := by
  constructor
  · exact (C9_anchor_at_line_start).1 [' ', ' '] "version = \"1.2.3\"".toList
      (by decide) (by decide)
  · apply (C9_anchor_at_line_start).2 "  version = \"1.2.3\"".toList "patch"
    intro t ht
    rw [show lineSuffixes "  version = \"1.2.3\"".toList
          = ["  version = \"1.2.3\"".toList] from by decide] at ht
    simp at ht
    subst ht
    exact Or.inr ⟨' ', " version = \"1.2.3\"".toList, by decide, by decide⟩

/-- Claim C10: matching does not require the closing quote to end the line —
when the text after the matched declaration starts with any character other
than a newline (trailing same-line content such as a comment), the bump still
matches, rewrites only the quoted value, and reproduces the trailing content
byte for byte. -/
theorem C10_trailing_content (text pre : List Char) (m : VMatch) (part : String)
    (c : Char) (t2 : List Char)
    (h : scanFrom true text = some (pre, m))
    (hrest : m.rest = c :: t2) (_hc : c ≠ '\n') :
    bump_version text part = Except.ok
      (pre ++ (matchedStr (bumpedMatch part m) ++ (c :: t2)),
       verString (bumpTriple part (digitsToNat m.d1) (digitsToNat m.d2) (digitsToNat m.d3))) := by
  have hb := bump_ok part h
  rw [hrest] at hb
  exact hb

theorem C10_witness :
    bump_version "version = \"1.2.3\"  # pinned\n".toList "patch"
      = Except.ok ("version = \"1.2.4\"  # pinned\n".toList, "1.2.4".toList) := by
  have h := C10_trailing_content "version = \"1.2.3\"  # pinned\n".toList []
    ⟨[' '], [' '], ['1'], ['2'], ['3'], "  # pinned\n".toList⟩ "patch"
    ' ' " # pinned\n".toList (by decide) (by decide) (by decide)
  exact h
